import Mathlib

/-
Verification of the global-namespace resolution and merge engine of the
denoland TypeScript fork (src/compiler/deno.ts and its earlier variant).

The engine routes ambient global identifiers between two symbol tables
(`globals`, the default table, and `nodeGlobals`, the alternate table),
merges incoming symbol tables into them, exposes the pair as a combined
read-through view, and parses `npm:` package reference strings.

Symbol tables are modelled as insertion-ordered association lists, matching
the insertion-order semantics of the JavaScript `Map` used by the source.
Symbols and AST nodes are opaque to the engine and are modelled as type
parameters.
-/

set_option autoImplicit false

namespace TsDeno

/-- Which of the two backing symbol tables a name is routed to:
`globals` is the default table, `nodeGlobals` the alternate (node) table. -/
inductive GlobalTable where
  | globals
  | nodeGlobals
deriving DecidableEq, Repr

/-- The other one of the two backing tables. -/
def GlobalTable.other : GlobalTable → GlobalTable
  | .globals => .nodeGlobals
  | .nodeGlobals => .globals

/-- A symbol table: an insertion-ordered mapping from identifier text to a
symbol, with unique keys (the `Map` of the source). -/
abbrev SymbolTable (σ : Type) := List (String × σ)

/-- Lookup in a symbol table (`Map.prototype.get`): the first entry whose key
matches, or absence. -/
def tableGet {σ : Type} (t : SymbolTable σ) (k : String) : Option σ :=
  match t with
  | [] => none
  | (k', v) :: rest => if k' = k then some v else tableGet rest k

/-- Presence test in a symbol table (`Map.prototype.has`). -/
def tableHas {σ : Type} (t : SymbolTable σ) (k : String) : Bool :=
  match t with
  | [] => false
  | (k', _) :: rest => if k' = k then true else tableHas rest k

/-- Update in a symbol table (`Map.prototype.set`): replace in place when the
key is present, append at the end otherwise. -/
def tableSet {σ : Type} (t : SymbolTable σ) (k : String) (v : σ) : SymbolTable σ :=
  match t with
  | [] => [(k, v)]
  | (k', v') :: rest => if k' = k then (k, v) :: rest else (k', v') :: tableSet rest k v

/-- The well-known alternate-only global names of the current variant
(`nodeOnlyGlobalNames` in src/compiler/deno.ts); the source builds a `Set`
from this list, so the duplicated entry is harmless. -/
def nodeOnlyGlobalNames : List String :=
  ["NodeRequire", "RequireResolve", "RequireResolve", "process", "console",
   "__filename", "__dirname", "require", "module", "exports", "gc",
   "BufferEncoding", "BufferConstructor", "WithImplicitCoercion", "Buffer",
   "Console", "ImportMeta", "setTimeout", "setInterval", "setImmediate",
   "Global", "AbortController", "AbortSignal", "Blob", "BroadcastChannel",
   "MessageChannel", "MessagePort", "Event", "EventTarget", "performance",
   "TextDecoder", "TextEncoder", "URL", "URLSearchParams"]

/-- The ignored global names of the earlier variant (`ignoredGlobalNames` in
the unnamed source file). -/
def ignoredGlobalNames : List String :=
  ["Object", "Function", "CallableFunction", "NewableFunction", "Array",
   "ReadonlyArray", "String", "Number", "Boolean", "RegExpr", "ThisType",
   "NonNullable", "Int8Array", "Uint8ClampedArray", "Int16Array",
   "Uint16Array", "Int32Array", "Float32Array", "Float64Array",
   "BigInt64Array", "BigUint64Array"]

/-- JavaScript `String.prototype.startsWith`, computed character-wise so that
it reduces inside the kernel. -/
def jsStartsWith (s pre : String) : Bool :=
  pre.toList.isPrefixOf s.toList

/-- JavaScript `s.slice(a)` / `s.substring(a)`: the characters from index
`a` on. -/
def jsDrop (s : String) (a : Nat) : String :=
  (s.toList.drop a).asString

/-- JavaScript `s.substring(0, b)`: the first `b` characters. -/
def jsTake (s : String) (b : Nat) : String :=
  (s.toList.take b).asString

/-- The text `id.slice(6, -1)` of the source: what remains of an ambient
module identifier after dropping the six characters of the quoted prefix
`"node:` and the final (closing-quote) character. -/
def nodeSpecifierName (id : String) : String :=
  ((id.toList.drop 6).dropLast).asString

/-- The classifier of the current variant (`getGlobalsForName` in
src/compiler/deno.ts). `ambientModuleSymbolRegex` is the caller-supplied
pattern, modelled as a Boolean predicate on the identifier text;
`nodeBuiltInModuleNames` is the configured built-in module name set. -/
def getGlobalsForName (ambientModuleSymbolRegex : String → Bool)
    (nodeBuiltInModuleNames : List String) (id : String) : GlobalTable :=
  if ambientModuleSymbolRegex id then
    if jsStartsWith id "\"node:" then
      if nodeSpecifierName id ∈ nodeBuiltInModuleNames then .globals else .nodeGlobals
    else .nodeGlobals
  else if id ∈ nodeOnlyGlobalNames then .nodeGlobals else .globals

/-- The allow predicate of the earlier variant (`isAllowedNodeGlobalName`). -/
def isAllowedNodeGlobalName (id : String) : Bool :=
  !(decide (id ∈ ignoredGlobalNames))

/-- The classifier of the earlier variant: every allowed name goes to the
alternate table, ignored names to the default table. -/
def getGlobalsForNameB (id : String) : GlobalTable :=
  if isAllowedNodeGlobalName id then .nodeGlobals else .globals

/-- `hasNodeSourceFile` (identical in both variants): `false` for an absent
node, otherwise the configured `isNodeSourceFile` callback applied to the
node's source file. `ν` is the opaque AST node type; source files are nodes,
and `getSourceFileOfNode` maps a node to its source file. -/
def hasNodeSourceFile {ν : Type} (isNodeSourceFile : ν → Bool)
    (getSourceFileOfNode : ν → ν) (node : Option ν) : Bool :=
  match node with
  | none => false
  | some n => isNodeSourceFile (getSourceFileOfNode n)

/-- The pair of backing tables mutated by the merge operation. -/
structure ForkTables (σ : Type) where
  globals : SymbolTable σ
  nodeGlobals : SymbolTable σ
deriving DecidableEq, Repr

/-- Project the table selected by a classification out of the state. -/
def tableFor {σ : Type} (st : ForkTables σ) : GlobalTable → SymbolTable σ
  | .globals => st.globals
  | .nodeGlobals => st.nodeGlobals

/-- Write through to the selected backing table. -/
def setIn {σ : Type} (st : ForkTables σ) (which : GlobalTable) (k : String) (v : σ) :
    ForkTables σ :=
  match which with
  | .globals => { st with globals := tableSet st.globals k v }
  | .nodeGlobals => { st with nodeGlobals := tableSet st.nodeGlobals k v }

/-- The per-entry body of `mergeGlobalSymbolTable`: route the entry to its
destination table, merging with an existing symbol via `mergeSymbol` or
inserting the incoming symbol unchanged. -/
def mergeOneSymbol {σ : Type} (mergeSymbol : σ → σ → Bool → σ) (unidirectional : Bool)
    (route : String → GlobalTable) (st : ForkTables σ) (e : String × σ) : ForkTables σ :=
  let target := route e.1
  match tableGet (tableFor st target) e.1 with
  | some targetSymbol => setIn st target e.1 (mergeSymbol targetSymbol e.2 unidirectional)
  | none => setIn st target e.1 e.2

/-- The destination chosen by `mergeGlobalSymbolTable` for one identifier:
the classifier's table for a node source file, unconditionally the default
table otherwise. -/
def mergeRoute (ambientModuleSymbolRegex : String → Bool)
    (nodeBuiltInModuleNames : List String) (isNodeFile : Bool) (id : String) : GlobalTable :=
  if isNodeFile then getGlobalsForName ambientModuleSymbolRegex nodeBuiltInModuleNames id
  else .globals

/-- `mergeGlobalSymbolTable` of the current variant: the source file of the
context node is computed first, then `hasNodeSourceFile` is applied to it,
and every entry of `source` is routed and merged in the source table's
iteration order. The mutation of the two tables is modelled as state
passing. -/
def mergeGlobalSymbolTable {σ ν : Type} (mergeSymbol : σ → σ → Bool → σ)
    (ambientModuleSymbolRegex : String → Bool) (nodeBuiltInModuleNames : List String)
    (isNodeSourceFile : ν → Bool) (getSourceFileOfNode : ν → ν)
    (node : ν) (source : SymbolTable σ) (unidirectional : Bool)
    (st : ForkTables σ) : ForkTables σ :=
  let sourceFile := getSourceFileOfNode node
  let isNodeFile := hasNodeSourceFile isNodeSourceFile getSourceFileOfNode (some sourceFile)
  source.foldl
    (mergeOneSymbol mergeSymbol unidirectional
      (mergeRoute ambientModuleSymbolRegex nodeBuiltInModuleNames isNodeFile)) st

/-- The combined view's `get`: the alternate table's value when present,
else the default table's (`nodeGlobals.get(key) ?? globals.get(key)`). -/
def combinedGet {σ : Type} (nodeGlobals globals : SymbolTable σ) (k : String) : Option σ :=
  match tableGet nodeGlobals k with
  | some v => some v
  | none => tableGet globals k

/-- The combined view's `has`: presence in either backing table
(`nodeGlobals.has(key) || globals.has(key)`). -/
def combinedHas {σ : Type} (nodeGlobals globals : SymbolTable σ) (k : String) : Bool :=
  tableHas nodeGlobals k || tableHas globals k

/-- The body of the `getEntries` generator: walk the pending entries, yield
each one whose key was not yielded before, and remember yielded keys in
`foundKeys`. -/
def getEntriesAux {σ : Type} (pending : List (String × σ)) (foundKeys : List String) :
    List (String × σ) :=
  match pending with
  | [] => []
  | (k, v) :: rest =>
    if k ∈ foundKeys then getEntriesAux rest foundKeys
    else (k, v) :: getEntriesAux rest (k :: foundKeys)

/-- The full sequence produced by one call of the `getEntries` generator:
the alternate table's entries first, then the default table's, deduplicated
by key with an initially empty `foundKeys` set. -/
def combinedEntries {σ : Type} (nodeGlobals globals : SymbolTable σ) : List (String × σ) :=
  getEntriesAux (nodeGlobals ++ globals) []

/-- The combined view's `keys()` sequence (`getEntries(kv => kv[0])`). -/
def combinedKeys {σ : Type} (nodeGlobals globals : SymbolTable σ) : List String :=
  (combinedEntries nodeGlobals globals).map Prod.fst

/-- The combined view's `values()` sequence (`getEntries(kv => kv[1])`). -/
def combinedValues {σ : Type} (nodeGlobals globals : SymbolTable σ) : List σ :=
  (combinedEntries nodeGlobals globals).map Prod.snd

/-- The combined view's `size`: the count accumulated by draining one
`getEntries` sequence, i.e. its length. -/
def combinedSize {σ : Type} (nodeGlobals globals : SymbolTable σ) : Nat :=
  (combinedEntries nodeGlobals globals).length

/-- The sequence observed through `Symbol.iterator` in the current variant,
which materializes the generator into an array before iterating
(`arrayFrom(getEntries(kv => kv))`). -/
def symbolIteratorSeqA {σ : Type} (nodeGlobals globals : SymbolTable σ) :
    List (String × σ) :=
  ((combinedEntries nodeGlobals globals).toArray).toList

/-- The sequence observed through `Symbol.iterator` in the earlier variant,
which returns the `getEntries` generator directly. -/
def symbolIteratorSeqB {σ : Type} (nodeGlobals globals : SymbolTable σ) :
    List (String × σ) :=
  combinedEntries nodeGlobals globals

/-- The state of one generator object obtained from `getEntries`: the
entries it has not yet yielded. -/
structure GenIterator (α : Type) where
  remaining : List α
deriving DecidableEq, Repr

/-- One step of the iteration protocol (`iterator.next()`): an exhausted
iterator yields nothing and stays exhausted. -/
def iterNext {α : Type} (it : GenIterator α) : Option α × GenIterator α :=
  match it.remaining with
  | [] => (none, ⟨[]⟩)
  | x :: rest => (some x, ⟨rest⟩)

/-- Drain a list of pending elements, ending on the exhausted iterator. -/
def drainList {α : Type} : List α → List α × GenIterator α
  | [] => ([], ⟨[]⟩)
  | x :: rest => ((x :: (drainList rest).1), (drainList rest).2)

/-- Consume a generator to exhaustion (the `while (!iterator.next().done)`
idiom): everything it yields, paired with the spent iterator. -/
def drainAll {α : Type} (it : GenIterator α) : List α × GenIterator α :=
  drainList it.remaining

/-- A call to the combined view's `entries()`: a fresh generator over the
tables' current contents. -/
def entriesIteratorCall {σ : Type} (nodeGlobals globals : SymbolTable σ) :
    GenIterator (String × σ) :=
  ⟨combinedEntries nodeGlobals globals⟩

/-- A call to the combined view's `keys()`. -/
def keysIteratorCall {σ : Type} (nodeGlobals globals : SymbolTable σ) :
    GenIterator String :=
  ⟨combinedKeys nodeGlobals globals⟩

/-- A call to the combined view's `values()`. -/
def valuesIteratorCall {σ : Type} (nodeGlobals globals : SymbolTable σ) :
    GenIterator σ :=
  ⟨combinedValues nodeGlobals globals⟩

/-- A parsed npm package reference (the `NpmPackageReference` interface):
`versionReq` and `subPath` are absent when the specifier carries none. -/
structure NpmPackageReference where
  name : String
  versionReq : Option String
  subPath : Option String
deriving DecidableEq, Repr

/-- The three failure modes of `parseNpmPackageReference`, in the order the
source raises them. -/
inductive NpmParseError where
  | NotAnNpmSpecifier
  | InvalidPackage
  | EmptyName
deriving DecidableEq, Repr

/-- JavaScript `String.prototype.lastIndexOf` for a single character, as an
optional index. -/
def lastIndexOfChar (c : Char) (s : String) : Option Nat :=
  match s.toList.reverse.findIdx? (· == c) with
  | some j => some (s.toList.length - 1 - j)
  | none => none

/-- JavaScript `String.prototype.split` on a single-character separator,
character-wise: splitting the empty text yields one empty segment. -/
def splitOnChar (c : Char) : List Char → List (List Char)
  | [] => [[]]
  | x :: rest =>
    match splitOnChar c rest with
    | [] => [[]]
    | s :: ss => if x = c then [] :: s :: ss else (x :: s) :: ss

/-- JavaScript `Array.prototype.join("/")`. -/
def joinSlash : List String → String
  | [] => ""
  | [s] => s
  | s :: rest => ((s.toList ++ '/' :: (joinSlash rest).toList)).asString

/-- The specifier text after `text.replace(/^npm:\/?/, "")`: the four
characters of `npm:` stripped, then one optional leading slash. -/
def npmBody (text : String) : String :=
  let t := text.toList.drop 4
  match t with
  | [] => ""
  | x :: rest => if x = '/' then rest.asString else (x :: rest).asString

/-- The `/`-separated segments of the stripped specifier text. -/
def npmParts (text : String) : List String :=
  (splitOnChar '/' (npmBody text).toList).map List.asString

/-- How many leading segments form the package name: 2 for a scoped name
(stripped text starting with `@`), 1 otherwise. -/
def npmNamePartLen (text : String) : Nat :=
  if jsStartsWith (npmBody text) "@" then 2 else 1

/-- The leading name segments of the specifier. -/
def npmNameParts (text : String) : List String :=
  (npmParts text).take (npmNamePartLen text)

/-- Version stripping (steps around `lastIndexOf("@")` in the source): when
the last `@` of the last name segment sits at an index greater than 0, the
text after it is the version requirement and the segment is truncated to
the text before it; otherwise the segments are unchanged and the version
requirement is absent. -/
def npmStrippedNameParts (text : String) : List String × Option String :=
  let nameParts := npmNameParts text
  let lastNamePart := nameParts.getLastD ""
  match lastIndexOfChar '@' lastNamePart with
  | some i =>
    if 0 < i then
      (nameParts.dropLast ++ [jsTake lastNamePart i], some (jsDrop lastNamePart (i + 1)))
    else (nameParts, none)
  | none => (nameParts, none)

/-- The package name: the (version-stripped) name segments joined with `/`. -/
def npmName (text : String) : String :=
  joinSlash (npmStrippedNameParts text).1

/-- `parseNpmPackageReference`: the thrown errors of the source are modelled
as `Except` values. -/
def parseNpmPackageReference (text : String) :
    Except NpmParseError NpmPackageReference :=
  if jsStartsWith text "npm:" then
    if (npmParts text).length < npmNamePartLen text then
      .error .InvalidPackage
    else if npmName text = "" then
      .error .EmptyName
    else
      .ok
        { name := npmName text
          versionReq := (npmStrippedNameParts text).2
          subPath :=
            if npmNamePartLen text < (npmParts text).length then
              some (joinSlash ((npmParts text).drop (npmNamePartLen text)))
            else none }
  else .error .NotAnNpmSpecifier

/-- `tryParseNpmPackageReference`: the `try`/`catch` wrapper converting any
parse error to absence. -/
def tryParseNpmPackageReference (text : String) : Option NpmPackageReference :=
  match parseNpmPackageReference text with
  | .ok r => some r
  | .error _ => none

/- Helper lemmas about symbol tables -/

theorem tableGet_tableSet_self {σ : Type} (t : SymbolTable σ) (k : String) (v : σ) :
    tableGet (tableSet t k v) k = some v := by
  induction t with
  | nil => simp [tableSet, tableGet]
  | cons p rest ih =>
    obtain ⟨k', v'⟩ := p
    by_cases h : k' = k
    · simp [tableSet, h, tableGet]
    · simp [tableSet, h, tableGet, ih]

theorem tableGet_tableSet_ne {σ : Type} (t : SymbolTable σ) (k k' : String) (v : σ)
    (h : k' ≠ k) : tableGet (tableSet t k v) k' = tableGet t k' := by
  induction t with
  | nil => simp [tableSet, tableGet, Ne.symm h]
  | cons p rest ih =>
    obtain ⟨k'', v''⟩ := p
    by_cases hk : k'' = k
    · subst hk
      simp [tableSet, tableGet, Ne.symm h]
    · by_cases hk' : k'' = k' <;> simp [tableSet, hk, tableGet, hk', ih, h]

theorem tableHas_eq_isSome_tableGet {σ : Type} (t : SymbolTable σ) (k : String) :
    tableHas t k = (tableGet t k).isSome := by
  induction t with
  | nil => simp [tableHas, tableGet]
  | cons p rest ih =>
    obtain ⟨k', v'⟩ := p
    by_cases h : k' = k
    · simp [tableHas, tableGet, h]
    · simp [tableHas, tableGet, h, ih]

theorem tableGet_isSome_iff_mem {σ : Type} (t : SymbolTable σ) (k : String) :
    (tableGet t k).isSome = true ↔ k ∈ t.map Prod.fst := by
  induction t with
  | nil => simp [tableGet]
  | cons p rest ih =>
    obtain ⟨k', v'⟩ := p
    by_cases h : k' = k
    · simp [tableGet, h]
    · simp [tableGet, h, ih, Ne.symm h]

theorem tableGet_eq_none_of_not_mem {σ : Type} (t : SymbolTable σ) (k : String)
    (h : k ∉ t.map Prod.fst) : tableGet t k = none := by
  rcases hg : tableGet t k with _ | v
  · rfl
  · exact absurd ((tableGet_isSome_iff_mem t k).mp (by simp [hg])) h

theorem tableGet_of_mem {σ : Type} (t : SymbolTable σ) (k : String) (v : σ)
    (hnd : (t.map Prod.fst).Nodup) (hm : (k, v) ∈ t) : tableGet t k = some v := by
  induction t with
  | nil => cases hm
  | cons p rest ih =>
    obtain ⟨k', v'⟩ := p
    simp only [List.map_cons, List.nodup_cons] at hnd
    rcases List.mem_cons.mp hm with h | h
    · cases h
      simp [tableGet]
    · have hne : k' ≠ k := by
        intro he
        exact hnd.1 (he ▸ (List.mem_map.mpr ⟨(k, v), h, rfl⟩))
      simp [tableGet, hne, ih hnd.2 h]

/- Claim theorems about the classifier and the context predicate -/

/-- C1: the classifier `getGlobalsForName` is total and routes every
identifier as the spec states: an ambient-pattern match starting with the
quoted prefix `"node:` whose inner name is a configured built-in module goes
to the default table; every other ambient-pattern match goes to the
alternate table; a non-match goes to the alternate table exactly when it is
one of the well-known alternate-only names, and to the default table
otherwise. -/
theorem getGlobalsForName_routing (ambientModuleSymbolRegex : String → Bool)
    (nodeBuiltInModuleNames : List String) (id : String) :
    (getGlobalsForName ambientModuleSymbolRegex nodeBuiltInModuleNames id = .globals ↔
      (ambientModuleSymbolRegex id = true ∧ jsStartsWith id "\"node:" = true ∧
        nodeSpecifierName id ∈ nodeBuiltInModuleNames) ∨
      (ambientModuleSymbolRegex id = false ∧ id ∉ nodeOnlyGlobalNames)) ∧
    (getGlobalsForName ambientModuleSymbolRegex nodeBuiltInModuleNames id = .nodeGlobals ↔
      (ambientModuleSymbolRegex id = true ∧
        ¬(jsStartsWith id "\"node:" = true ∧ nodeSpecifierName id ∈ nodeBuiltInModuleNames)) ∨
      (ambientModuleSymbolRegex id = false ∧ id ∈ nodeOnlyGlobalNames)) := by
  unfold getGlobalsForName
  cases hp : ambientModuleSymbolRegex id
  · by_cases hm : id ∈ nodeOnlyGlobalNames <;> simp [hm]
  · cases hs : jsStartsWith id "\"node:"
    · simp
    · by_cases hb : nodeSpecifierName id ∈ nodeBuiltInModuleNames <;> simp [hb]

/-- C10: `hasNodeSourceFile` returns `false` for an absent node in both
variants (the function is textually identical in the two source files), and
the configured predicate is not consulted there: the result for an absent
node does not depend on the callback. -/
theorem hasNodeSourceFile_none {ν : Type} (isNodeSourceFile isNodeSourceFile' : ν → Bool)
    (getSourceFileOfNode : ν → ν) :
    hasNodeSourceFile isNodeSourceFile getSourceFileOfNode none = false ∧
    hasNodeSourceFile isNodeSourceFile getSourceFileOfNode none =
      hasNodeSourceFile isNodeSourceFile' getSourceFileOfNode none := by
  exact ⟨rfl, rfl⟩

/- Claim theorems about the combined view's lookup operations -/

/-- C3: the combined view's `has` is true exactly when the identifier is
present in the alternate or the default table; `get` returns the alternate
table's value when present there, else the default table's, else absence;
and `get` is present exactly when `has` holds. Both operations are total. -/
theorem combined_has_get_spec {σ : Type} (nodeGlobals globals : SymbolTable σ) (k : String) :
    (combinedHas nodeGlobals globals k = true ↔
      (tableGet nodeGlobals k).isSome = true ∨ (tableGet globals k).isSome = true) ∧
    (∀ v, tableGet nodeGlobals k = some v → combinedGet nodeGlobals globals k = some v) ∧
    (tableGet nodeGlobals k = none → combinedGet nodeGlobals globals k = tableGet globals k) ∧
    ((combinedGet nodeGlobals globals k).isSome = true ↔ combinedHas nodeGlobals globals k = true) := by
  refine ⟨?_, ?_, ?_, ?_⟩
  · simp [combinedHas, tableHas_eq_isSome_tableGet]
  · intro v hv
    simp [combinedGet, hv]
  · intro hv
    simp [combinedGet, hv]
  · rcases hn : tableGet nodeGlobals k with _ | v <;>
      simp [combinedGet, combinedHas, hn, tableHas_eq_isSome_tableGet]

/- Helper lemmas about the getEntries generator -/

theorem getEntriesAux_congr_seen {σ : Type} (l : List (String × σ)) (s₁ s₂ : List String)
    (h : ∀ x, x ∈ s₁ ↔ x ∈ s₂) : getEntriesAux l s₁ = getEntriesAux l s₂ := by
  induction l generalizing s₁ s₂ with
  | nil => rfl
  | cons p rest ih =>
    obtain ⟨k, v⟩ := p
    by_cases hk : k ∈ s₁
    · simp [getEntriesAux, hk, (h k).mp hk, ih s₁ s₂ h]
    · have hk₂ : k ∉ s₂ := fun hh => hk ((h k).mpr hh)
      have h' : ∀ x, x ∈ k :: s₁ ↔ x ∈ k :: s₂ := by
        intro x
        simp [h x]
      simp [getEntriesAux, hk, hk₂, ih (k :: s₁) (k :: s₂) h']

theorem getEntriesAux_append {σ : Type} (n g : List (String × σ)) (seen : List String)
    (hseen : ∀ p ∈ n, p.1 ∉ seen) (hnd : (n.map Prod.fst).Nodup) :
    getEntriesAux (n ++ g) seen = n ++ getEntriesAux g (n.map Prod.fst ++ seen) := by
  induction n generalizing seen with
  | nil => simp
  | cons p rest ih =>
    obtain ⟨k, v⟩ := p
    simp only [List.map_cons, List.nodup_cons] at hnd
    have hk : k ∉ seen := hseen (k, v) (List.mem_cons_self _ _)
    have hrest : ∀ p ∈ rest, p.1 ∉ (k :: seen) := by
      intro p hp
      simp only [List.mem_cons]
      rintro (he | he)
      · exact hnd.1 (he ▸ (List.mem_map.mpr ⟨p, hp, rfl⟩))
      · exact hseen p (List.mem_cons_of_mem _ hp) he
    have hperm : ∀ x, x ∈ rest.map Prod.fst ++ (k :: seen) ↔ x ∈ (k :: rest.map Prod.fst) ++ seen := by
      intro x
      simp only [List.mem_append, List.mem_cons]
      tauto
    have hstep : getEntriesAux (((k, v) :: rest) ++ g) seen
        = (k, v) :: getEntriesAux (rest ++ g) (k :: seen) := by
      show (if k ∈ seen then getEntriesAux (rest ++ g) seen
            else (k, v) :: getEntriesAux (rest ++ g) (k :: seen)) = _
      rw [if_neg hk]
    rw [hstep, ih (k :: seen) hrest hnd.2,
        getEntriesAux_congr_seen g _ _ hperm]
    simp

theorem getEntriesAux_eq_filter {σ : Type} (g : List (String × σ)) (seen : List String)
    (hnd : (g.map Prod.fst).Nodup) :
    getEntriesAux g seen = g.filter (fun p => decide (p.1 ∉ seen)) := by
  induction g generalizing seen with
  | nil => rfl
  | cons p rest ih =>
    obtain ⟨k, v⟩ := p
    simp only [List.map_cons, List.nodup_cons] at hnd
    by_cases hk : k ∈ seen
    · simp [getEntriesAux, hk, ih seen hnd.2]
    · have hcong : ∀ p ∈ rest, (decide (p.1 ∉ (k :: seen)) = decide (p.1 ∉ seen)) := by
        intro p hp
        have hne : p.1 ≠ k := by
          intro he
          exact hnd.1 (he ▸ (List.mem_map.mpr ⟨p, hp, rfl⟩))
        simp [hne]
      have hstep : getEntriesAux ((k, v) :: rest) seen
          = (k, v) :: getEntriesAux rest (k :: seen) := by
        show (if k ∈ seen then getEntriesAux rest seen
              else (k, v) :: getEntriesAux rest (k :: seen)) = _
        rw [if_neg hk]
      rw [hstep, ih (k :: seen) hnd.2, List.filter_congr hcong, List.filter_cons]
      simp [hk]

theorem mem_keys_getEntriesAux {σ : Type} (l : List (String × σ)) (seen : List String)
    (k : String) :
    k ∈ (getEntriesAux l seen).map Prod.fst ↔ (k ∈ l.map Prod.fst ∧ k ∉ seen) := by
  induction l generalizing seen with
  | nil => simp [getEntriesAux]
  | cons p rest ih =>
    obtain ⟨k', v⟩ := p
    by_cases hk : k' ∈ seen
    · by_cases he : k = k'
      · subst he
        simp [getEntriesAux, hk, ih, hk]
      · simp [getEntriesAux, hk, ih, he]
    · by_cases he : k = k'
      · subst he
        simp [getEntriesAux, hk, ih]
      · simp [getEntriesAux, hk, ih, he]

theorem nodup_keys_getEntriesAux {σ : Type} (l : List (String × σ)) (seen : List String) :
    ((getEntriesAux l seen).map Prod.fst).Nodup := by
  induction l generalizing seen with
  | nil => simp [getEntriesAux]
  | cons p rest ih =>
    obtain ⟨k, v⟩ := p
    by_cases hk : k ∈ seen
    · simp only [getEntriesAux, if_pos hk]
      exact ih seen
    · simp only [getEntriesAux, if_neg hk, List.map_cons, List.nodup_cons]
      refine ⟨?_, ih (k :: seen)⟩
      intro hmem
      exact ((mem_keys_getEntriesAux rest (k :: seen) k).mp hmem).2 (List.mem_cons_self _ _)

/- Claim theorems about the combined view's enumeration -/

/-- C4: on backing tables with unique keys, the entries sequence is the
alternate table's entries followed by the default table's entries whose key
was not already yielded; keys are never repeated; every yielded pair carries
the value the combined view's `get` returns (in particular a key present in
both tables is yielded once, with the alternate table's value); the yielded
keys are exactly the union of the two key sets; `keys()`/`values()` are the
componentwise projections; and `size` is the number of distinct keys of the
union, i.e. the length of the entries sequence. -/
theorem combinedEntries_spec {σ : Type} (nodeGlobals globals : SymbolTable σ)
    (hn : (nodeGlobals.map Prod.fst).Nodup) (hg : (globals.map Prod.fst).Nodup) :
    combinedEntries nodeGlobals globals =
      nodeGlobals ++ globals.filter (fun p => decide (p.1 ∉ nodeGlobals.map Prod.fst)) ∧
    (combinedKeys nodeGlobals globals).Nodup ∧
    (∀ k v, (k, v) ∈ combinedEntries nodeGlobals globals →
      combinedGet nodeGlobals globals k = some v) ∧
    (∀ k, k ∈ combinedKeys nodeGlobals globals ↔
      k ∈ nodeGlobals.map Prod.fst ∨ k ∈ globals.map Prod.fst) ∧
    combinedKeys nodeGlobals globals = (combinedEntries nodeGlobals globals).map Prod.fst ∧
    combinedValues nodeGlobals globals = (combinedEntries nodeGlobals globals).map Prod.snd ∧
    combinedSize nodeGlobals globals = (combinedEntries nodeGlobals globals).length ∧
    combinedSize nodeGlobals globals =
      ((nodeGlobals ++ globals).map Prod.fst).toFinset.card := by
  have hdecomp : combinedEntries nodeGlobals globals =
      nodeGlobals ++ globals.filter (fun p => decide (p.1 ∉ nodeGlobals.map Prod.fst)) := by
    unfold combinedEntries
    rw [getEntriesAux_append nodeGlobals globals [] (by simp) hn]
    rw [getEntriesAux_congr_seen globals _ (nodeGlobals.map Prod.fst) (by simp)]
    rw [getEntriesAux_eq_filter globals (nodeGlobals.map Prod.fst) hg]
  have hnodupkeys : (combinedKeys nodeGlobals globals).Nodup :=
    nodup_keys_getEntriesAux _ _
  refine ⟨hdecomp, hnodupkeys, ?_, ?_, rfl, rfl, rfl, ?_⟩
  · intro k v hm
    rw [hdecomp] at hm
    rcases List.mem_append.mp hm with h | h
    · have : tableGet nodeGlobals k = some v := tableGet_of_mem _ _ _ hn h
      simp [combinedGet, this]
    · rw [List.mem_filter] at h
      have hkn : k ∉ nodeGlobals.map Prod.fst := by simpa using h.2
      have h1 : tableGet nodeGlobals k = none := tableGet_eq_none_of_not_mem _ _ hkn
      have h2 : tableGet globals k = some v := tableGet_of_mem _ _ _ hg h.1
      simp [combinedGet, h1, h2]
  · intro k
    unfold combinedKeys combinedEntries
    rw [mem_keys_getEntriesAux]
    simp
  · have hlen : combinedSize nodeGlobals globals = (combinedKeys nodeGlobals globals).length := by
      simp [combinedSize, combinedKeys]
    rw [hlen, ← List.toFinset_card_of_nodup hnodupkeys]
    congr 1
    apply Finset.ext
    intro k
    simp only [List.mem_toFinset]
    unfold combinedKeys combinedEntries
    rw [mem_keys_getEntriesAux]
    simp

/-- C7: forward iteration through the combined view yields exactly the
entries sequence, in both variants: the current one materializes the
generator into an array first (`arrayFrom(getEntries(kv => kv))`), the
earlier one returns the generator directly. -/
theorem symbolIterator_eq_entries {σ : Type} (nodeGlobals globals : SymbolTable σ) :
    symbolIteratorSeqA nodeGlobals globals = combinedEntries nodeGlobals globals ∧
    symbolIteratorSeqB nodeGlobals globals = combinedEntries nodeGlobals globals := by
  constructor
  · simp [symbolIteratorSeqA]
  · rfl

/-- C8: each call of `entries()` (likewise `keys()` and `values()`) yields a
fresh generator whose full drain produces the sequence over the tables'
current contents — so two calls on unchanged tables produce identical
contents — while any single generator is one-shot: after a full drain, a
further drain yields nothing and a further `next` reports exhaustion. -/
theorem entries_restartable_and_one_shot {σ : Type} (nodeGlobals globals : SymbolTable σ) :
    (drainAll (entriesIteratorCall nodeGlobals globals)).1 = combinedEntries nodeGlobals globals ∧
    (drainAll ((drainAll (entriesIteratorCall nodeGlobals globals)).2)).1 = [] ∧
    iterNext (drainAll (entriesIteratorCall nodeGlobals globals)).2 =
      (none, (drainAll (entriesIteratorCall nodeGlobals globals)).2) ∧
    (drainAll (keysIteratorCall nodeGlobals globals)).1 = combinedKeys nodeGlobals globals ∧
    (drainAll ((drainAll (keysIteratorCall nodeGlobals globals)).2)).1 = [] ∧
    (drainAll (valuesIteratorCall nodeGlobals globals)).1 = combinedValues nodeGlobals globals ∧
    (drainAll ((drainAll (valuesIteratorCall nodeGlobals globals)).2)).1 = [] := by
  have hdrain : ∀ (α : Type) (l : List α), drainAll ⟨l⟩ = (l, (⟨[]⟩ : GenIterator α)) := by
    intro α l
    induction l with
    | nil => rfl
    | cons x rest ih =>
      show drainList (x :: rest) = _
      rw [drainList]
      simp only [drainAll] at ih
      simp [ih]
  refine ⟨?_, ?_, ?_, ?_, ?_, ?_, ?_⟩ <;>
    simp [entriesIteratorCall, keysIteratorCall, valuesIteratorCall, hdrain, iterNext]

/- Helper lemmas about the merge operation -/

theorem tableFor_setIn_self {σ : Type} (st : ForkTables σ) (w : GlobalTable) (k : String) (v : σ) :
    tableFor (setIn st w k v) w = tableSet (tableFor st w) k v := by
  cases w <;> rfl

theorem tableFor_setIn_other {σ : Type} (st : ForkTables σ) (w w' : GlobalTable) (k : String)
    (v : σ) (h : w' ≠ w) : tableFor (setIn st w k v) w' = tableFor st w' := by
  cases w <;> cases w' <;> first | rfl | exact absurd rfl h

theorem mergeOneSymbol_get_ne {σ : Type} (mergeSymbol : σ → σ → Bool → σ) (uni : Bool)
    (route : String → GlobalTable) (st : ForkTables σ) (e : String × σ) (k : String)
    (h : k ≠ e.1) (w : GlobalTable) :
    tableGet (tableFor (mergeOneSymbol mergeSymbol uni route st e) w) k =
      tableGet (tableFor st w) k := by
  unfold mergeOneSymbol
  rcases hget : tableGet (tableFor st (route e.1)) e.1 with _ | ex <;>
    simp only [hget] <;>
    by_cases hw : w = route e.1
  · subst hw
    rw [tableFor_setIn_self, tableGet_tableSet_ne _ _ _ _ h]
  · rw [tableFor_setIn_other _ _ _ _ _ hw]
  · subst hw
    rw [tableFor_setIn_self, tableGet_tableSet_ne _ _ _ _ h]
  · rw [tableFor_setIn_other _ _ _ _ _ hw]

theorem mergeOneSymbol_get_self {σ : Type} (mergeSymbol : σ → σ → Bool → σ) (uni : Bool)
    (route : String → GlobalTable) (st : ForkTables σ) (e : String × σ) :
    tableGet (tableFor (mergeOneSymbol mergeSymbol uni route st e) (route e.1)) e.1 =
      some (match tableGet (tableFor st (route e.1)) e.1 with
            | some ex => mergeSymbol ex e.2 uni
            | none => e.2) ∧
    tableGet (tableFor (mergeOneSymbol mergeSymbol uni route st e) (route e.1).other) e.1 =
      tableGet (tableFor st (route e.1).other) e.1 := by
  have hother : (route e.1).other ≠ route e.1 := by
    cases route e.1 <;> simp [GlobalTable.other]
  unfold mergeOneSymbol
  rcases hget : tableGet (tableFor st (route e.1)) e.1 with _ | ex <;>
    simp only [hget] <;>
    exact ⟨by rw [tableFor_setIn_self, tableGet_tableSet_self],
           by rw [tableFor_setIn_other _ _ _ _ _ hother]⟩

theorem foldl_mergeOneSymbol_not_mem {σ : Type} (mergeSymbol : σ → σ → Bool → σ) (uni : Bool)
    (route : String → GlobalTable) (source : SymbolTable σ) (st : ForkTables σ) (k : String)
    (h : k ∉ source.map Prod.fst) (w : GlobalTable) :
    tableGet (tableFor (source.foldl (mergeOneSymbol mergeSymbol uni route) st) w) k =
      tableGet (tableFor st w) k := by
  induction source generalizing st with
  | nil => rfl
  | cons e rest ih =>
    simp only [List.map_cons, List.mem_cons, not_or] at h
    rw [List.foldl_cons, ih _ h.2, mergeOneSymbol_get_ne _ _ _ _ _ _ h.1 w]

theorem foldl_mergeOneSymbol_mem {σ : Type} (mergeSymbol : σ → σ → Bool → σ) (uni : Bool)
    (route : String → GlobalTable) :
    ∀ (source : SymbolTable σ) (st : ForkTables σ), (source.map Prod.fst).Nodup →
    ∀ id sym, (id, sym) ∈ source →
    tableGet (tableFor (source.foldl (mergeOneSymbol mergeSymbol uni route) st) (route id)) id =
      some (match tableGet (tableFor st (route id)) id with
            | some existing => mergeSymbol existing sym uni
            | none => sym) ∧
    tableGet (tableFor (source.foldl (mergeOneSymbol mergeSymbol uni route) st)
        (route id).other) id =
      tableGet (tableFor st (route id).other) id := by
  intro source
  induction source with
  | nil =>
    intro st _ id sym hmem
    cases hmem
  | cons e rest ih =>
    intro st hnodup id sym hmem
    simp only [List.map_cons, List.nodup_cons] at hnodup
    rcases List.mem_cons.mp hmem with he | he
    · subst he
      rw [List.foldl_cons]
      have hid : id ∉ rest.map Prod.fst := by simpa using hnodup.1
      constructor
      · rw [foldl_mergeOneSymbol_not_mem _ _ _ _ _ _ hid]
        exact (mergeOneSymbol_get_self mergeSymbol uni route st (id, sym)).1
      · rw [foldl_mergeOneSymbol_not_mem _ _ _ _ _ _ hid]
        exact (mergeOneSymbol_get_self mergeSymbol uni route st (id, sym)).2
    · have hne : id ≠ e.1 := by
        intro hh
        exact hnodup.1 (hh ▸ (List.mem_map.mpr ⟨(id, sym), he, rfl⟩))
      rw [List.foldl_cons]
      have hrw := mergeOneSymbol_get_ne mergeSymbol uni route st e id hne
      rcases ih (mergeOneSymbol mergeSymbol uni route st e) hnodup.2 id sym he with ⟨ih1, ih2⟩
      exact ⟨by rw [ih1, hrw], by rw [ih2, hrw]⟩

/- Claim theorem about the merge operation -/

/-- C2: for every entry of the source table, `mergeGlobalSymbolTable` writes
into the table the classifier picks when the context is a node source file
and unconditionally into the default table otherwise, replacing an existing
destination entry by `mergeSymbol(existing, incoming, unidirectional)` and
inserting a fresh one unchanged, while leaving the other table's entry for
that key and all entries under keys outside the source untouched; when the
context is not a node source file, the classifier configuration is never
consulted: the result does not depend on the ambient pattern or the
built-in module name set; and on an idempotent `getSourceFileOfNode` the
node-context test is exactly the alternate-runtime predicate applied to the
node's source file. -/
theorem mergeGlobalSymbolTable_spec {σ ν : Type} (mergeSymbol : σ → σ → Bool → σ)
    (ambientModuleSymbolRegex : String → Bool) (nodeBuiltInModuleNames : List String)
    (isNodeSourceFile : ν → Bool) (getSourceFileOfNode : ν → ν)
    (node : ν) (source : SymbolTable σ) (unidirectional : Bool) (st : ForkTables σ)
    (hnodup : (source.map Prod.fst).Nodup) :
    (∀ k, k ∉ source.map Prod.fst → ∀ w,
      tableGet (tableFor (mergeGlobalSymbolTable mergeSymbol ambientModuleSymbolRegex
        nodeBuiltInModuleNames isNodeSourceFile getSourceFileOfNode node source
        unidirectional st) w) k = tableGet (tableFor st w) k) ∧
    (∀ id sym, (id, sym) ∈ source →
      tableGet (tableFor (mergeGlobalSymbolTable mergeSymbol ambientModuleSymbolRegex
          nodeBuiltInModuleNames isNodeSourceFile getSourceFileOfNode node source
          unidirectional st)
        (mergeRoute ambientModuleSymbolRegex nodeBuiltInModuleNames
          (hasNodeSourceFile isNodeSourceFile getSourceFileOfNode
            (some (getSourceFileOfNode node))) id)) id =
        some (match tableGet (tableFor st
            (mergeRoute ambientModuleSymbolRegex nodeBuiltInModuleNames
              (hasNodeSourceFile isNodeSourceFile getSourceFileOfNode
                (some (getSourceFileOfNode node))) id)) id with
          | some existing => mergeSymbol existing sym unidirectional
          | none => sym) ∧
      tableGet (tableFor (mergeGlobalSymbolTable mergeSymbol ambientModuleSymbolRegex
          nodeBuiltInModuleNames isNodeSourceFile getSourceFileOfNode node source
          unidirectional st)
        (mergeRoute ambientModuleSymbolRegex nodeBuiltInModuleNames
          (hasNodeSourceFile isNodeSourceFile getSourceFileOfNode
            (some (getSourceFileOfNode node))) id).other) id =
        tableGet (tableFor st
          (mergeRoute ambientModuleSymbolRegex nodeBuiltInModuleNames
            (hasNodeSourceFile isNodeSourceFile getSourceFileOfNode
              (some (getSourceFileOfNode node))) id).other) id) ∧
    (isNodeSourceFile (getSourceFileOfNode (getSourceFileOfNode node)) = false →
      ∀ (ambientModuleSymbolRegex' : String → Bool) (nodeBuiltInModuleNames' : List String),
        mergeGlobalSymbolTable mergeSymbol ambientModuleSymbolRegex nodeBuiltInModuleNames
          isNodeSourceFile getSourceFileOfNode node source unidirectional st =
        mergeGlobalSymbolTable mergeSymbol ambientModuleSymbolRegex' nodeBuiltInModuleNames'
          isNodeSourceFile getSourceFileOfNode node source unidirectional st) ∧
    ((∀ x, getSourceFileOfNode (getSourceFileOfNode x) = getSourceFileOfNode x) →
      hasNodeSourceFile isNodeSourceFile getSourceFileOfNode (some (getSourceFileOfNode node)) =
        isNodeSourceFile (getSourceFileOfNode node)) := by
  refine ⟨?_, ?_, ?_, ?_⟩
  · intro k hk w
    exact foldl_mergeOneSymbol_not_mem _ _ _ _ _ _ hk w
  · intro id sym hmem
    exact foldl_mergeOneSymbol_mem mergeSymbol unidirectional
      (mergeRoute ambientModuleSymbolRegex nodeBuiltInModuleNames
        (hasNodeSourceFile isNodeSourceFile getSourceFileOfNode
          (some (getSourceFileOfNode node))))
      source st hnodup id sym hmem
  · intro hfalse ambientModuleSymbolRegex' nodeBuiltInModuleNames'
    have h1 : hasNodeSourceFile isNodeSourceFile getSourceFileOfNode
        (some (getSourceFileOfNode node)) = false := by
      simpa [hasNodeSourceFile] using hfalse
    have h2 : mergeRoute ambientModuleSymbolRegex nodeBuiltInModuleNames false =
        mergeRoute ambientModuleSymbolRegex' nodeBuiltInModuleNames' false := by
      funext id
      simp [mergeRoute]
    simp only [mergeGlobalSymbolTable]
    rw [h1, h2]
  · intro hidem
    simp [hasNodeSourceFile, hidem]

/-- Witness for C2 at concrete tables: key `z` is outside the source table,
so its entry in the default table is untouched by the merge. -/
theorem mergeGlobalSymbolTable_spec_witness :
    tableGet (tableFor (mergeGlobalSymbolTable (fun a b _ => a + b) (fun _ => false) []
      (fun _ => true) (fun x => x) () [("a", 1), ("Buffer", 2)] false
      ⟨[("z", 5)], []⟩) GlobalTable.globals) "z" =
      tableGet (tableFor (⟨[("z", 5)], []⟩ : ForkTables Nat) GlobalTable.globals) "z" :=
  (mergeGlobalSymbolTable_spec (fun a b _ => a + b) (fun _ => false) []
    (fun _ => true) (fun x => x) () [("a", 1), ("Buffer", 2)] false
    ⟨[("z", 5)], []⟩ (by decide)).1 "z" (by decide) GlobalTable.globals

/- Claim theorem about the two classifier variants' calibration names -/

theorem getGlobalsForName_of_pattern_false (ambientModuleSymbolRegex : String → Bool)
    (nodeBuiltInModuleNames : List String) (id : String)
    (h : ambientModuleSymbolRegex id = false) :
    getGlobalsForName ambientModuleSymbolRegex nodeBuiltInModuleNames id =
      if id ∈ nodeOnlyGlobalNames then .nodeGlobals else .globals := by
  unfold getGlobalsForName
  rw [h]
  simp

/-- C9: despite the inverted polarities of their name lists, the two
classifier variants agree on the calibration names: `Buffer`, `process` and
`require` (as plain identifiers the ambient pattern does not match) go to
the alternate table in both variants, while `Array`, `Object` and the
typed-array constructor names go to the default table in both variants. -/
theorem classifier_variants_calibration (ambientModuleSymbolRegex : String → Bool)
    (nodeBuiltInModuleNames : List String)
    (hpat : ∀ s ∈ (["Buffer", "process", "require", "Array", "Object", "Int8Array",
        "Uint8ClampedArray", "Int16Array", "Uint16Array", "Int32Array", "Float32Array",
        "Float64Array", "BigInt64Array", "BigUint64Array"] : List String),
      ambientModuleSymbolRegex s = false) :
    (∀ s ∈ (["Buffer", "process", "require"] : List String),
      getGlobalsForName ambientModuleSymbolRegex nodeBuiltInModuleNames s =
        GlobalTable.nodeGlobals ∧
      getGlobalsForNameB s = GlobalTable.nodeGlobals) ∧
    (∀ s ∈ (["Array", "Object", "Int8Array", "Uint8ClampedArray", "Int16Array",
        "Uint16Array", "Int32Array", "Float32Array", "Float64Array", "BigInt64Array",
        "BigUint64Array"] : List String),
      getGlobalsForName ambientModuleSymbolRegex nodeBuiltInModuleNames s =
        GlobalTable.globals ∧
      getGlobalsForNameB s = GlobalTable.globals) := by
  constructor
  · intro s hs
    simp only [List.mem_cons, List.not_mem_nil, or_false] at hs
    rcases hs with rfl | rfl | rfl <;>
      exact ⟨by rw [getGlobalsForName_of_pattern_false _ _ _ (hpat _ (by decide))]; decide,
             by decide⟩
  · intro s hs
    simp only [List.mem_cons, List.not_mem_nil, or_false] at hs
    rcases hs with rfl | rfl | rfl | rfl | rfl | rfl | rfl | rfl | rfl | rfl | rfl <;>
      exact ⟨by rw [getGlobalsForName_of_pattern_false _ _ _ (hpat _ (by decide))]; decide,
             by decide⟩

/-- Witness for C9 with the everywhere-false ambient pattern: `Buffer` is
routed to the alternate table and `Array` to the default table. -/
theorem classifier_variants_calibration_witness :
    getGlobalsForName (fun _ => false) [] "Buffer" = GlobalTable.nodeGlobals ∧
    getGlobalsForName (fun _ => false) [] "Array" = GlobalTable.globals :=
  ⟨((classifier_variants_calibration (fun _ => false) [] (by decide)).1
      "Buffer" (by decide)).1,
   ((classifier_variants_calibration (fun _ => false) [] (by decide)).2
      "Array" (by decide)).1⟩

/- Claim theorems about the package reference parser -/

/-- C5: on accepted inputs the parser decomposes the specifier as the spec
states, witnessed across every branch of the algorithm: a plain name with
version and sub-path, a scoped name with version, a bare name, the optional
leading slash, a scope's leading `@` never mistaken for a version
separator, a multi-`@` name split at the last `@`, a multi-segment
sub-path; and the sub-path is absent exactly when no segments remain after
the name segments. -/
theorem parseNpmPackageReference_accepts :
    parseNpmPackageReference "npm:lodash@4.17.21/fp" =
      Except.ok ⟨"lodash", some "4.17.21", some "fp"⟩ ∧
    parseNpmPackageReference "npm:@angular/core@15.0.0" =
      Except.ok ⟨"@angular/core", some "15.0.0", none⟩ ∧
    parseNpmPackageReference "npm:left-pad" = Except.ok ⟨"left-pad", none, none⟩ ∧
    parseNpmPackageReference "npm:/lodash@4.17.21" =
      Except.ok ⟨"lodash", some "4.17.21", none⟩ ∧
    parseNpmPackageReference "npm:@scope/@x" = Except.ok ⟨"@scope/@x", none, none⟩ ∧
    parseNpmPackageReference "npm:a@b@c" = Except.ok ⟨"a@b", some "c", none⟩ ∧
    parseNpmPackageReference "npm:lodash/fp/extra" =
      Except.ok ⟨"lodash", none, some "fp/extra"⟩ ∧
    (∀ text r, parseNpmPackageReference text = Except.ok r →
      (r.subPath = none ↔ (npmParts text).length = npmNamePartLen text)) := by
  refine ⟨rfl, rfl, rfl, rfl, rfl, rfl, rfl, ?_⟩
  intro text r h
  unfold parseNpmPackageReference at h
  split_ifs at h with h1 h2 h3 h4
  · injection h with h
    subst h
    simp
    omega
  · injection h with h
    subst h
    simp
    omega

/-- Witness for C5's general sub-path conjunct at a concrete accepted
input: `npm:lodash` has exactly the name segment and no sub-path. -/
theorem parseNpmPackageReference_accepts_witness :
    (⟨"lodash", none, none⟩ : NpmPackageReference).subPath = none ↔
      (npmParts "npm:lodash").length = npmNamePartLen "npm:lodash" :=
  parseNpmPackageReference_accepts.2.2.2.2.2.2.2 "npm:lodash" ⟨"lodash", none, none⟩ rfl

/-- C6: the parser fails, and fails only, in the three stated ways — the
missing `npm:` prefix, too few segments for the scoped or unscoped name, or
an empty joined name — and the non-throwing wrapper returns the parser's
result on success and absence exactly on failure, as witnessed at the
spec's malformed inputs. -/
theorem parseNpmPackageReference_errors (text : String) :
    (parseNpmPackageReference text = Except.error NpmParseError.NotAnNpmSpecifier ↔
      jsStartsWith text "npm:" = false) ∧
    (parseNpmPackageReference text = Except.error NpmParseError.InvalidPackage ↔
      jsStartsWith text "npm:" = true ∧ (npmParts text).length < npmNamePartLen text) ∧
    (parseNpmPackageReference text = Except.error NpmParseError.EmptyName ↔
      jsStartsWith text "npm:" = true ∧ ¬((npmParts text).length < npmNamePartLen text) ∧
      npmName text = "") ∧
    (∀ r, tryParseNpmPackageReference text = some r ↔
      parseNpmPackageReference text = Except.ok r) ∧
    (tryParseNpmPackageReference text = none ↔
      ∃ e, parseNpmPackageReference text = Except.error e) ∧
    parseNpmPackageReference "npm:@scope" = Except.error NpmParseError.InvalidPackage ∧
    parseNpmPackageReference "left-pad" = Except.error NpmParseError.NotAnNpmSpecifier ∧
    tryParseNpmPackageReference "left-pad" = none := by
  refine ⟨?_, ?_, ?_, ?_, ?_, rfl, rfl, rfl⟩
  · unfold parseNpmPackageReference
    split_ifs with h1 h2 h3 <;> simp [h1]
  · unfold parseNpmPackageReference
    split_ifs with h1 h2 h3 <;> simp_all
  · unfold parseNpmPackageReference
    split_ifs with h1 h2 h3 <;> simp_all
  · intro r
    unfold tryParseNpmPackageReference
    rcases hp : parseNpmPackageReference text with e | v <;> simp [hp]
  · unfold tryParseNpmPackageReference
    rcases hp : parseNpmPackageReference text with e | v <;> simp [hp]

/-- Witness for C4 at concrete tables with a key present in both: the pair
yielded for it carries the alternate table's value, so the combined `get`
returns that value. -/
theorem combinedEntries_spec_witness :
    combinedGet [("x", 1)] [("x", 2), ("z", 3)] "x" = some 1 :=
  (combinedEntries_spec [("x", 1)] [("x", 2), ("z", 3)] (by decide) (by decide)).2.2.1
    "x" 1 (by decide)

end TsDeno
